import Mathlib

set_option maxRecDepth 8000

/-! Shallow embedding of the gbtile image-to-tile pipeline (src/main.rs):
color rounding, the luminance quantizer, the decode-time unique-color scan,
the 8x8 tile bit-plane packer, and the GBDK header emitter. -/

/-- Exact 8-bit RGB triple (struct RGB in the source). Channels are
modelled as Nat; the u8 range is carried as hypotheses where needed. -/
structure RGB where
  r : Nat
  g : Nat
  b : Nat
deriving DecidableEq, Repr

/-- RGB::round: each channel truncated down to a multiple of 32 by
integer division. -/
def RGB.round (c : RGB) : RGB :=
  ⟨c.r / 32 * 32, c.g / 32 * 32, c.b / 32 * 32⟩

def GB_MAX_COLOR_COUNT : Nat := 4

/-- Error type of the decoder. The Png and Io variants carry external
library payloads in the source; the payloads are irrelevant to the core
pipeline and omitted here. UnsupportedColorType carries the offending
color type in the source, likewise omitted. -/
inductive ImageReadError where
  | Png
  | Io
  | UnsupportedColorType
  | TooManyColors
deriving DecidableEq, Repr

deriving instance DecidableEq for Except

/-- DecodedImage: width/height stand for the png::OutputInfo fields the
core reads; the HashMap of color numbers is modelled as an association
list (lookup semantics only; hashing is irrelevant). -/
structure DecodedImage where
  width : Nat
  height : Nat
  image_data : List RGB
  color_numbers : List (RGB × Nat)
deriving DecidableEq, Repr

/-- map_2bit: the luminance-bucket palette index of a color, from the sum
of its channel values. -/
def map_2bit (rgb : RGB) : Nat :=
  let sum := rgb.r + rgb.g + rgb.b
  if sum ≤ 191 then 3
  else if 191 < sum ∧ sum ≤ 382 then 2
  else if 382 < sum ∧ sum ≤ 573 then 1
  else 0

/-- rgbs_to_color_number: palette map sending each unique color to its
luminance bucket. -/
def rgbs_to_color_number (unique_colors : List RGB) : List (RGB × Nat) :=
  unique_colors.map (fun rgb => (rgb, map_2bit rgb))

/-- DecodedImage::lookup_color. The source unwraps the HashMap lookup
(panicking on a missing color); the unwrap is modelled by getD with an
arbitrary default, and the safety claim shows the default is never used
for decoded images. -/
def lookup_color (img : DecodedImage) (pixel : RGB) : Nat :=
  (img.color_numbers.lookup pixel).getD 0

/-- One BTreeSet::insert of decode_image's scan. The set is modelled as a
duplicate-free list; the B-tree's internal ordering only affects
iteration order, on which no lookup result depends. -/
def insertColor (s : List RGB) (c : RGB) : List RGB :=
  if c ∈ s then s else s ++ [c]

/-- The unique-color scan loop of decode_image: insert each pixel's color,
failing with TooManyColors as soon as the set exceeds 4 entries. -/
def scanColors (s : List RGB) : List RGB → Except ImageReadError (List RGB)
  | [] => .ok s
  | c :: rest =>
    let s2 := insertColor s c
    if GB_MAX_COLOR_COUNT < s2.length then .error ImageReadError.TooManyColors
    else scanColors s2 rest

/-- Core of decode_image after the external PNG decode: scan the pixel
colors (already rounded by read_image_data) and build the palette map.
File opening and PNG parsing are external collaborators and out of
scope. -/
def decode_core (width height : Nat) (image_data : List RGB) :
    Except ImageReadError DecodedImage :=
  match scanColors [] image_data with
  | .error e => .error e
  | .ok unique_colors =>
      .ok { width := width, height := height, image_data := image_data,
            color_numbers := rgbs_to_color_number unique_colors }

def PIXELS_PER_LINE : Nat := 8

/-- The pixel index computed in encode_tile's innermost loop. -/
def pixelIndex (width row column tile_row tile_column : Nat) : Nat :=
  (column * 8 + tile_column) + ((width * tile_row) + (row * 8 * width))

/-- The palette index of the pixel encode_tile reads at a given loop
position (indexing into image_data, then lookup_color). -/
def pixelColor (img : DecodedImage) (row column tile_row tile_column : Nat) : Nat :=
  lookup_color img
    (img.image_data.getD (pixelIndex img.width row column tile_row tile_column) ⟨0, 0, 0⟩)

/-- The tile_column loop of encode_tile: accumulate one tile row's low and
high bit-plane bytes by OR-ing each pixel's palette-index bits into bit
position PIXELS_PER_LINE - tile_column - 1. -/
def rowBytes (img : DecodedImage) (row column tile_row : Nat) : Nat × Nat :=
  (List.range 8).foldl
    (fun acc tile_column =>
      let color := pixelColor img row column tile_row tile_column
      (acc.1 ||| ((color &&& 0x01) <<< (PIXELS_PER_LINE - tile_column - 1)),
        acc.2 ||| (((color >>> 1) &&& 0x01) <<< (PIXELS_PER_LINE - tile_column - 1))))
    (0, 0)

/-- The 16 bytes one 8x8 block contributes: per tile row, the low byte
then the high byte. -/
def blockBytes (img : DecodedImage) (row column : Nat) : List Nat :=
  (List.range 8).bind (fun tile_row =>
    [(rowBytes img row column tile_row).1, (rowBytes img row column tile_row).2])

/-- encode_tile: rows = height / 8 and columns = width / 8 (truncating
integer division), blocks emitted row-major, 16 bytes per block. -/
def encode_tile (img : DecodedImage) : List Nat :=
  (List.range (img.height / 8)).bind (fun row =>
    (List.range (img.width / 8)).bind (fun column =>
      blockBytes img row column))

/-- One hexadecimal digit, uppercase. -/
def hexDigit (n : Nat) : Char :=
  if n < 10 then Char.ofNat (48 + n) else Char.ofNat (55 + n)

/-- Rust's alternate zero-padded hex formatting of a u8 (width 4 counting
the 0x prefix): 0x then exactly two uppercase hex digits. -/
def formatByteHex (byte : Nat) : String :=
  "0x" ++ String.mk [hexDigit (byte / 16 % 16), hexDigit (byte % 16)]

/-- Fuel-driven worker for chunks16; the fuel only bounds the recursion
depth (it is always at least the list length plus one at the call site),
so the first pattern is never reached. -/
def chunks16Go : Nat → List Nat → List (List Nat)
  | 0, _ => []
  | _, [] => []
  | fuel + 1, x :: xs => (x :: xs).take 16 :: chunks16Go fuel ((x :: xs).drop 16)

/-- Vec::chunks(16): split the byte stream into lines of 16 bytes, the
last line possibly shorter. -/
def chunks16 (l : List Nat) : List (List Nat) := chunks16Go (l.length + 1) l

/-- write_tile_gbdk: the GBDK C-header emitter. -/
def write_tile_gbdk (variable_name : String) (tile_data : List Nat) : String :=
  let preamble := "unsigned char " ++ variable_name ++ "[] = \x7b"
  let body := (chunks16 tile_data).map
    (fun line => "    " ++ String.intercalate "," (line.map formatByteHex))
  preamble ++ "\n" ++ String.intercalate ",\n" body ++ "\n\x7d;\n"

/-- Modelled from the spec: the luminance bucket as the spec words it, a
function of the channel sum alone (four threshold cases). Used to compare
map_2bit against the spec's description. -/
def lumBucket (sum : Nat) : Nat :=
  if sum ≤ 191 then 3
  else if sum ≤ 382 then 2
  else if sum ≤ 573 then 1
  else 0

/-- Concrete 8x8 all-black test image with its luminance palette map. -/
def blackImg8 : DecodedImage :=
  { width := 8, height := 8, image_data := List.replicate 64 ⟨0, 0, 0⟩,
    color_numbers := [(⟨0, 0, 0⟩, 3)] }

/-- Concrete 16x8 all-black test image (two horizontal blocks). -/
def blackImg16x8 : DecodedImage :=
  { width := 16, height := 8, image_data := List.replicate 128 ⟨0, 0, 0⟩,
    color_numbers := [(⟨0, 0, 0⟩, 3)] }

/-- Concrete 8x8 pixel buffer with five distinct rounded colors, all of
channel sum at most 191, so all five fall in luminance bucket 3. -/
def fiveColorData : List RGB :=
  List.replicate 60 ⟨0, 0, 0⟩ ++ [⟨0, 0, 32⟩, ⟨0, 32, 0⟩, ⟨32, 0, 0⟩, ⟨0, 32, 32⟩]

/-- Concrete one-pixel image buffer. -/
def oneBlackPixel : List RGB := [⟨0, 0, 0⟩]

/-- The DecodedImage decode_core produces from oneBlackPixel. -/
def imgOnePixel : DecodedImage := ⟨1, 1, oneBlackPixel, [(⟨0, 0, 0⟩, 3)]⟩

/-- Sixteen distinct test bytes for the emitter scenario. -/
def sixteenBytes : List Nat := [0, 1, 2, 3, 4, 5, 6, 7, 8, 9, 10, 11, 12, 13, 14, 15]

/-- Bytes 0 to 15 followed by byte 255, to exercise the two-line case. -/
def seventeenBytes : List Nat := sixteenBytes ++ [255]

/-- Modelled from the spec: the header template of section 4.4 — the
preamble unsigned char symbol[] = brace, then the byte stream rendered 16
bytes per line (line i holds the bytes from position 16 * i on, at most
16 of them; there are ceil(length / 16) lines), each byte as 0x plus two
zero-padded hex digits, bytes comma-separated within a line, each line
indented four spaces, lines joined by a comma and newline, terminated by
the closing brace, semicolon and a trailing newline. The line
decomposition is stated arithmetically, independent of the emitter's
chunking recursion. -/
def specHeaderFormat (symbol : String) (data : List Nat) : String :=
  "unsigned char " ++ symbol ++ "[] = \x7b" ++ "\n" ++
    String.intercalate ",\n"
      ((List.range ((data.length + 15) / 16)).map (fun i =>
        "    " ++ String.intercalate "," (((data.drop (16 * i)).take 16).map formatByteHex))) ++
    "\n\x7d;\n"

/-- Modelled from the spec: reconstruct the palette index of the pixel at
block (row, column), tile row tile_row, pixel position p, from the packed
stream, reading the byte pair in block-then-row order and taking bit
(7 - p) of the low byte as the low index bit and bit (7 - p) of the high
byte as the high index bit. -/
def reconstructIndex (stream : List Nat) (columns row column tile_row p : Nat) : Nat :=
  ((stream.getD (((row * columns + column) * 8 + tile_row) * 2 + 1) 0 >>> (7 - p)) &&& 1) * 2
    + ((stream.getD (((row * columns + column) * 8 + tile_row) * 2) 0 >>> (7 - p)) &&& 1)

/-! Helper lemmas on bit extraction. -/

lemma div_pow_mod_two_eq (x k : Nat) : x / 2 ^ k % 2 = (x.testBit k).toNat := by
  rw [Nat.testBit_to_div_mod]
  rcases Nat.mod_two_eq_zero_or_one (x / 2 ^ k) with h | h <;> simp [h]

lemma extract_or_bit (x k : Nat) : (x >>> k) &&& 1 = (x.testBit k).toNat := by
  rw [Nat.and_one_is_mod, Nat.shiftRight_eq_div_pow, div_pow_mod_two_eq]

lemma toNat_decide_mod_two (x : Nat) : (decide (x % 2 = 1)).toNat = x % 2 := by
  rcases Nat.mod_two_eq_zero_or_one x with h | h <;> simp [h]

/-- Extraction of one bit from the OR-accumulated bit-plane byte: bit
(7 - p) of the accumulated byte is the low bit of the p-th value. -/
lemma or_accum_bit (v : Nat → Nat) (p : Nat) (hp : p < 8) :
    (((((((((0 ||| (v 0 &&& 1) <<< 7) ||| (v 1 &&& 1) <<< 6) ||| (v 2 &&& 1) <<< 5)
      ||| (v 3 &&& 1) <<< 4) ||| (v 4 &&& 1) <<< 3) ||| (v 5 &&& 1) <<< 2)
      ||| (v 6 &&& 1) <<< 1) ||| (v 7 &&& 1) <<< 0) >>> (7 - p)) &&& 1 = v p &&& 1 := by
  rw [extract_or_bit]
  interval_cases p <;>
    · simp only [Nat.testBit_or, Nat.testBit_shiftLeft, Nat.testBit_and]
      norm_num [Nat.testBit_to_div_mod]
      exact toNat_decide_mod_two _

/-- rowBytes unfolded: the fold over the eight tile columns is the nested
OR of the eight shifted bit contributions. -/
lemma rowBytes_eq (img : DecodedImage) (row column tile_row : Nat) :
    rowBytes img row column tile_row =
      ((((((((0 ||| (pixelColor img row column tile_row 0 &&& 1) <<< 7)
          ||| (pixelColor img row column tile_row 1 &&& 1) <<< 6)
          ||| (pixelColor img row column tile_row 2 &&& 1) <<< 5)
          ||| (pixelColor img row column tile_row 3 &&& 1) <<< 4)
          ||| (pixelColor img row column tile_row 4 &&& 1) <<< 3)
          ||| (pixelColor img row column tile_row 5 &&& 1) <<< 2)
          ||| (pixelColor img row column tile_row 6 &&& 1) <<< 1)
          ||| (pixelColor img row column tile_row 7 &&& 1) <<< 0,
        (((((((0 ||| ((pixelColor img row column tile_row 0 >>> 1) &&& 1) <<< 7)
          ||| ((pixelColor img row column tile_row 1 >>> 1) &&& 1) <<< 6)
          ||| ((pixelColor img row column tile_row 2 >>> 1) &&& 1) <<< 5)
          ||| ((pixelColor img row column tile_row 3 >>> 1) &&& 1) <<< 4)
          ||| ((pixelColor img row column tile_row 4 >>> 1) &&& 1) <<< 3)
          ||| ((pixelColor img row column tile_row 5 >>> 1) &&& 1) <<< 2)
          ||| ((pixelColor img row column tile_row 6 >>> 1) &&& 1) <<< 1)
          ||| ((pixelColor img row column tile_row 7 >>> 1) &&& 1) <<< 0) := by
  simp [rowBytes, List.range_succ, PIXELS_PER_LINE]

/-- Bit (7 - p) of the low bit-plane byte is the low bit of pixel p's
palette index. -/
lemma rowBytes_low_bit (img : DecodedImage) (row column tile_row p : Nat) (hp : p < 8) :
    ((rowBytes img row column tile_row).1 >>> (7 - p)) &&& 1 =
      pixelColor img row column tile_row p &&& 1 := by
  rw [rowBytes_eq]
  exact or_accum_bit (fun i => pixelColor img row column tile_row i) p hp

/-- Bit (7 - p) of the high bit-plane byte is the second bit of pixel p's
palette index. -/
lemma rowBytes_high_bit (img : DecodedImage) (row column tile_row p : Nat) (hp : p < 8) :
    ((rowBytes img row column tile_row).2 >>> (7 - p)) &&& 1 =
      (pixelColor img row column tile_row p >>> 1) &&& 1 := by
  rw [rowBytes_eq]
  exact or_accum_bit (fun i => pixelColor img row column tile_row i >>> 1) p hp

lemma shifted_bit_lt (x s : Nat) (hs : s < 8) : (x &&& 1) <<< s < 2 ^ 8 := by
  rw [Nat.shiftLeft_eq, Nat.and_one_is_mod]
  have h1 : x % 2 ≤ 1 := by omega
  have h2 : (2 : Nat) ^ s ≤ 2 ^ 7 := Nat.pow_le_pow_right (by omega) (by omega)
  calc x % 2 * 2 ^ s ≤ 1 * 2 ^ 7 := Nat.mul_le_mul h1 h2
    _ < 2 ^ 8 := by norm_num

/-- Both bit-plane bytes of a tile row fit in one byte. -/
lemma rowBytes_lt (img : DecodedImage) (row column tile_row : Nat) :
    (rowBytes img row column tile_row).1 < 256 ∧
      (rowBytes img row column tile_row).2 < 256 := by
  rw [rowBytes_eq]
  have h256 : (256 : Nat) = 2 ^ 8 := by norm_num
  constructor <;>
    · show _ < 256
      rw [h256]
      refine Nat.or_lt_two_pow ?_ (shifted_bit_lt _ 0 (by omega))
      refine Nat.or_lt_two_pow ?_ (shifted_bit_lt _ 1 (by omega))
      refine Nat.or_lt_two_pow ?_ (shifted_bit_lt _ 2 (by omega))
      refine Nat.or_lt_two_pow ?_ (shifted_bit_lt _ 3 (by omega))
      refine Nat.or_lt_two_pow ?_ (shifted_bit_lt _ 4 (by omega))
      refine Nat.or_lt_two_pow ?_ (shifted_bit_lt _ 5 (by omega))
      refine Nat.or_lt_two_pow ?_ (shifted_bit_lt _ 6 (by omega))
      exact Nat.or_lt_two_pow (by norm_num) (shifted_bit_lt _ 7 (by omega))

/-! Helper lemmas for indexing into flatMap-of-range structures. -/

lemma length_flatMap_const {α : Type} (f : Nat → List α) (k : Nat) :
    ∀ n, (∀ i, i < n → (f i).length = k) → ((List.range n).flatMap f).length = n * k := by
  intro n
  induction n with
  | zero => simp
  | succ m ih =>
      intro h
      rw [List.range_succ, List.flatMap_append]
      simp [ih (fun i hi => h i (by omega)), h m (by omega), Nat.succ_mul]

lemma getD_flatMap_range {α : Type} (d : α) (k : Nat) :
    ∀ (n : Nat) (f : Nat → List α), (∀ i, i < n → (f i).length = k) →
      ∀ i j, i < n → j < k →
        ((List.range n).flatMap f).getD (i * k + j) d = (f i).getD j d := by
  intro n
  induction n with
  | zero => intro f h i j hi; omega
  | succ m ih =>
      intro f h i j hi hj
      rw [List.range_succ, List.flatMap_append]
      have hlen : ((List.range m).flatMap f).length = m * k :=
        length_flatMap_const f k m (fun i hi => h i (by omega))
      by_cases him : i < m
      · rw [List.getD_append]
        · exact ih f (fun i hi => h i (by omega)) i j him hj
        · rw [hlen]
          calc i * k + j < i * k + k := by omega
            _ = (i + 1) * k := (Nat.succ_mul i k).symm
            _ ≤ m * k := Nat.mul_le_mul_right k (by omega)
      · have him' : i = m := by omega
        subst him'
        rw [List.getD_append_right]
        · simp [hlen]
        · rw [hlen]; omega

/-! Helper lemmas about the unique-color scan and the palette map. -/

lemma mem_insertColor (s : List RGB) (a c : RGB) :
    c ∈ insertColor s a ↔ c ∈ s ∨ c = a := by
  unfold insertColor
  split_ifs with h
  · constructor
    · exact fun hc => Or.inl hc
    · rintro (hc | rfl)
      · exact hc
      · exact h
  · simp [List.mem_append]

lemma nodup_insertColor (s : List RGB) (a : RGB) (hs : s.Nodup) :
    (insertColor s a).Nodup := by
  unfold insertColor
  split_ifs with h
  · exact hs
  · simp [List.nodup_append, hs, h]

lemma toFinset_insertColor (s : List RGB) (a : RGB) :
    (insertColor s a).toFinset = insert a s.toFinset := by
  unfold insertColor
  split_ifs with h
  · exact (Finset.insert_eq_self.mpr (List.mem_toFinset.mpr h)).symm
  · rw [List.toFinset_append, List.toFinset_cons, List.toFinset_nil,
      Finset.union_comm, Finset.insert_union, Finset.empty_union]

/-- The scan succeeds only by returning a set containing every scanned
color (and everything already in the accumulator). -/
lemma scanColors_mem : ∀ (l s res : List RGB), scanColors s l = .ok res →
    ∀ c, c ∈ s ∨ c ∈ l → c ∈ res := by
  intro l
  induction l with
  | nil =>
      intro s res h c hc
      simp only [scanColors] at h
      cases h
      rcases hc with hc | hc
      · exact hc
      · simp at hc
  | cons a rest ih =>
      intro s res h c hc
      simp only [scanColors] at h
      split_ifs at h with hif
      refine ih (insertColor s a) res h c ?_
      rcases hc with hc | hc
      · exact Or.inl ((mem_insertColor s a c).mpr (Or.inl hc))
      · rcases List.mem_cons.mp hc with hc' | hc'
        · exact Or.inl ((mem_insertColor s a c).mpr (Or.inr hc'))
        · exact Or.inr hc'

/-- The scan fails with TooManyColors whenever the colors seen exceed 4
distinct values. -/
lemma scanColors_err : ∀ (l s : List RGB), s.Nodup → s.length ≤ 4 →
    4 < (s.toFinset ∪ l.toFinset).card →
    scanColors s l = .error ImageReadError.TooManyColors := by
  intro l
  induction l with
  | nil =>
      intro s hnd hlen hcard
      exfalso
      rw [List.toFinset_nil, Finset.union_empty, List.toFinset_card_of_nodup hnd] at hcard
      omega
  | cons a rest ih =>
      intro s hnd hlen hcard
      simp only [scanColors]
      split_ifs with hc
      · rfl
      · simp only [GB_MAX_COLOR_COUNT] at hc
        refine ih (insertColor s a) (nodup_insertColor s a hnd) (by omega) ?_
        suffices h : (insertColor s a).toFinset ∪ rest.toFinset =
            s.toFinset ∪ (a :: rest).toFinset by rw [h]; exact hcard
        rw [toFinset_insertColor, List.toFinset_cons, Finset.insert_union,
          Finset.union_insert]

/-- Lookup in the palette map built over a color list containing c. -/
lemma lookup_rgbs_to_color_number (l : List RGB) (c : RGB) (hc : c ∈ l) :
    (rgbs_to_color_number l).lookup c = some (map_2bit c) := by
  induction l with
  | nil => simp at hc
  | cons a rest ih =>
      by_cases h : c = a
      · subst h
        simp [rgbs_to_color_number, List.lookup]
      · have hrest : c ∈ rest := by
          rcases List.mem_cons.mp hc with h' | h'
          · exact absurd h' h
          · exact h'
        simpa [rgbs_to_color_number, List.lookup, beq_false_of_ne h] using ih hrest

/-- Every pixel index computed by encode_tile's loops is in range, even
when width or height is not divisible by 8. -/
lemma pixelIndex_lt (width height row column tile_row tile_column : Nat)
    (hrow : row < height / 8) (hcol : column < width / 8)
    (htr : tile_row < 8) (htc : tile_column < 8) :
    pixelIndex width row column tile_row tile_column < width * height := by
  unfold pixelIndex
  have hw8 : (column + 1) * 8 ≤ width := by
    calc (column + 1) * 8 ≤ width / 8 * 8 := Nat.mul_le_mul_right 8 (by omega)
      _ ≤ width := Nat.div_mul_le_self width 8
  have hh8 : (row + 1) * 8 ≤ height := by
    calc (row + 1) * 8 ≤ height / 8 * 8 := Nat.mul_le_mul_right 8 (by omega)
      _ ≤ height := Nat.div_mul_le_self height 8
  have h3 : width * tile_row ≤ width * 7 := Nat.mul_le_mul_left width (by omega)
  have h4 : row * 8 * width ≤ (height - 8) * width :=
    Nat.mul_le_mul_right width (by omega)
  have h5 : (height - 8) * width = height * width - 8 * width := Nat.sub_mul height 8 width
  have h6 : height * width = width * height := Nat.mul_comm height width
  have h7 : 8 * width ≤ height * width := Nat.mul_le_mul_right width (by omega)
  omega

lemma blockBytes_length (img : DecodedImage) (row column : Nat) :
    (blockBytes img row column).length = 16 := by
  have := length_flatMap_const
    (fun tile_row => [(rowBytes img row column tile_row).1,
      (rowBytes img row column tile_row).2]) 2 8 (fun i _ => rfl)
  simpa [blockBytes] using this

/-- The packed stream has rows * columns blocks of 16 bytes. -/
lemma encode_tile_length (img : DecodedImage) :
    (encode_tile img).length = img.height / 8 * (img.width / 8 * 16) := by
  unfold encode_tile
  refine length_flatMap_const _ _ _ (fun i _ => ?_)
  refine length_flatMap_const _ _ _ (fun j _ => ?_)
  exact blockBytes_length img i j

/-- Reading the packed stream at the byte-pair position of a tile row
recovers that row's low byte (b = 0) or high byte (b = 1). -/
lemma encode_tile_getD (img : DecodedImage) (row column tile_row b : Nat)
    (hrow : row < img.height / 8) (hcol : column < img.width / 8)
    (htr : tile_row < 8) (hb : b < 2) :
    (encode_tile img).getD (((row * (img.width / 8) + column) * 8 + tile_row) * 2 + b) 0 =
      [(rowBytes img row column tile_row).1,
        (rowBytes img row column tile_row).2].getD b 0 := by
  have hidx : ((row * (img.width / 8) + column) * 8 + tile_row) * 2 + b =
      row * (img.width / 8 * 16) + (column * 16 + (tile_row * 2 + b)) := by ring
  rw [hidx]
  unfold encode_tile
  have hlen1 : ∀ i, i < img.height / 8 →
      ((List.range (img.width / 8)).flatMap (fun column => blockBytes img i column)).length =
        img.width / 8 * 16 :=
    fun i _ => length_flatMap_const _ _ _ (fun j _ => blockBytes_length img i j)
  rw [getD_flatMap_range 0 (img.width / 8 * 16) (img.height / 8) _ hlen1 row
    (column * 16 + (tile_row * 2 + b)) hrow (by omega)]
  rw [getD_flatMap_range 0 16 (img.width / 8) _
    (fun j _ => blockBytes_length img row j) column (tile_row * 2 + b) hcol (by omega)]
  unfold blockBytes
  rw [getD_flatMap_range 0 2 8
    (fun tile_row => [(rowBytes img row column tile_row).1,
      (rowBytes img row column tile_row).2]) (fun i _ => rfl) tile_row b htr hb]

/-- With fuel exceeding the list length, the chunking recursion computes
the arithmetic decomposition into 16-byte slices. -/
lemma chunks16Go_spec : ∀ (f : Nat) (l : List Nat), l.length < f →
    chunks16Go f l =
      (List.range ((l.length + 15) / 16)).map (fun i => (l.drop (16 * i)).take 16) := by
  intro f
  induction f with
  | zero => intro l h; omega
  | succ f ih =>
      intro l h
      cases l with
      | nil => simp [chunks16Go]
      | cons x xs =>
          rw [chunks16Go]
          have hlt : ((x :: xs).drop 16).length < f := by
            simp only [List.length_drop, List.length_cons] at h ⊢
            omega
          rw [ih _ hlt]
          have hn : ((x :: xs).length + 15) / 16 =
              (((x :: xs).drop 16).length + 15) / 16 + 1 := by
            simp only [List.length_drop, List.length_cons]
            omega
          rw [hn, List.range_succ_eq_map, List.map_cons, List.map_map]
          congr 1
          refine List.map_congr_left (fun i _ => ?_)
          show List.take 16 (List.drop (16 * i) (List.drop 16 (x :: xs))) =
            List.take 16 (List.drop (16 * Nat.succ i) (x :: xs))
          rw [List.drop_drop]
          have h16 : 16 + 16 * i = 16 * Nat.succ i := by omega
          rw [h16]

/-- The emitter's chunking equals the arithmetic 16-byte slicing. -/
lemma chunks16_eq_chunks (l : List Nat) :
    chunks16 l =
      (List.range ((l.length + 15) / 16)).map (fun i => (l.drop (16 * i)).take 16) :=
  chunks16Go_spec (l.length + 1) l (by omega)

/-! The claims. -/

/-- C1: in every packed tile row, the pixel at position p (0-indexed from
the left) with palette index c contributes exactly bit (7 - p) of the two
bit-plane bytes: the low byte carries c &&& 1 and the high byte carries
(c >>> 1) &&& 1 at bit (7 - p); both bytes fit in 8 bits, so pixel 0 maps
to the most-significant bit of both bytes. -/
theorem packer_bit_convention (img : DecodedImage) (row column tile_row p : Nat)
    (hp : p < 8) :
    ((rowBytes img row column tile_row).1 >>> (7 - p)) &&& 1 =
        pixelColor img row column tile_row p &&& 1 ∧
      ((rowBytes img row column tile_row).2 >>> (7 - p)) &&& 1 =
        (pixelColor img row column tile_row p >>> 1) &&& 1 ∧
      (rowBytes img row column tile_row).1 < 256 ∧
      (rowBytes img row column tile_row).2 < 256 :=
  ⟨rowBytes_low_bit img row column tile_row p hp,
    rowBytes_high_bit img row column tile_row p hp,
    (rowBytes_lt img row column tile_row).1,
    (rowBytes_lt img row column tile_row).2⟩

/-- Witness for C1 at the all-black 8x8 image, pixel 0 of the first row. -/
theorem packer_bit_convention_witness :
    (0 : Nat) < 8 ∧
      (((rowBytes blackImg8 0 0 0).1 >>> (7 - 0)) &&& 1 =
          pixelColor blackImg8 0 0 0 0 &&& 1 ∧
        ((rowBytes blackImg8 0 0 0).2 >>> (7 - 0)) &&& 1 =
          (pixelColor blackImg8 0 0 0 0 >>> 1) &&& 1 ∧
        (rowBytes blackImg8 0 0 0).1 < 256 ∧
        (rowBytes blackImg8 0 0 0).2 < 256) :=
  ⟨by decide, packer_bit_convention blackImg8 0 0 0 0 (by decide)⟩

/-- C2: the luminance palette index is a pure function of the channel sum
with thresholds 191, 382, 573 (3 darkest to 0 lightest); equal sums give
equal indices, and the index is always below 4. -/
theorem quantizer_luminance_pure (rgb : RGB)
    (hr : rgb.r < 256) (hg : rgb.g < 256) (hb : rgb.b < 256) :
    map_2bit rgb = lumBucket (rgb.r + rgb.g + rgb.b) ∧
      (∀ rgb' : RGB, rgb'.r + rgb'.g + rgb'.b = rgb.r + rgb.g + rgb.b →
        map_2bit rgb' = map_2bit rgb) ∧
      map_2bit rgb < 4 := by
  refine ⟨?_, ?_, ?_⟩
  · simp only [map_2bit, lumBucket]
    split_ifs <;> omega
  · intro rgb' hsum
    simp only [map_2bit]
    rw [hsum]
  · simp only [map_2bit]
    split_ifs <;> omega

/-- Witness for C2 at the color (100, 100, 0), channel sum 200. -/
theorem quantizer_luminance_pure_witness :
    (100 : Nat) < 256 ∧ (100 : Nat) < 256 ∧ (0 : Nat) < 256 ∧
      (map_2bit ⟨100, 100, 0⟩ = lumBucket (100 + 100 + 0) ∧
        (∀ rgb' : RGB, rgb'.r + rgb'.g + rgb'.b = 100 + 100 + 0 →
          map_2bit rgb' = map_2bit ⟨100, 100, 0⟩) ∧
        map_2bit ⟨100, 100, 0⟩ < 4) :=
  ⟨by decide, by decide, by decide,
    quantizer_luminance_pure ⟨100, 100, 0⟩ (by decide) (by decide) (by decide)⟩

/-- C5: for 8-divisible dimensions the packed stream has exactly
width * height / 4 bytes. -/
theorem packer_length_exact (img : DecodedImage)
    (hw : 8 ∣ img.width) (hh : 8 ∣ img.height) :
    (encode_tile img).length = img.width * img.height / 4 := by
  obtain ⟨a, ha⟩ := hw
  obtain ⟨b, hb⟩ := hh
  rw [encode_tile_length, ha, hb,
    Nat.mul_div_cancel_left a (by norm_num), Nat.mul_div_cancel_left b (by norm_num)]
  have h64 : 8 * a * (8 * b) = a * b * 64 := by ring
  rw [h64, Nat.mul_div_assoc (a * b) (by norm_num : (4 : Nat) ∣ 64)]
  have h16 : (64 : Nat) / 4 = 16 := by norm_num
  rw [h16]
  ring

/-- Witness for C5 at the all-black 8x8 image. -/
theorem packer_length_exact_witness :
    (8 : Nat) ∣ blackImg8.width ∧ (8 : Nat) ∣ blackImg8.height ∧
      (encode_tile blackImg8).length = blackImg8.width * blackImg8.height / 4 :=
  ⟨by decide, by decide, packer_length_exact blackImg8 (by decide) (by decide)⟩

/-- C6 counterexample: at the all-black 8x8 image the packed stream has 16
bytes, not width * height / 32 = 2 bytes, refuting the claimed identity
(pixel count / 8) * 2 = width * height / 32. -/
theorem packer_length_div32_counterexample :
    ¬ (encode_tile blackImg8).length = blackImg8.width * blackImg8.height / 32 := by
  decide

/-- C6 amended: the packed length equals (pixel count / 8) * 2 bytes,
which is width * height / 4 bytes (not width * height / 32). -/
theorem packer_length_pixel_pairs (img : DecodedImage)
    (hw : 8 ∣ img.width) (hh : 8 ∣ img.height) :
    (encode_tile img).length = img.width * img.height / 8 * 2 ∧
      img.width * img.height / 8 * 2 = img.width * img.height / 4 := by
  obtain ⟨a, ha⟩ := hw
  obtain ⟨b, hb⟩ := hh
  have h64 : 8 * a * (8 * b) = a * b * 64 := by ring
  constructor
  · rw [encode_tile_length, ha, hb,
      Nat.mul_div_cancel_left a (by norm_num), Nat.mul_div_cancel_left b (by norm_num),
      h64, Nat.mul_div_assoc (a * b) (by norm_num : (8 : Nat) ∣ 64)]
    have h8 : (64 : Nat) / 8 = 8 := by norm_num
    rw [h8]
    ring
  · rw [ha, hb, h64, Nat.mul_div_assoc (a * b) (by norm_num : (8 : Nat) ∣ 64),
      Nat.mul_div_assoc (a * b) (by norm_num : (4 : Nat) ∣ 64)]
    have h8 : (64 : Nat) / 8 = 8 := by norm_num
    have h16 : (64 : Nat) / 4 = 16 := by norm_num
    rw [h8, h16]
    ring

/-- Witness for the amended C6 at the all-black 8x8 image. -/
theorem packer_length_pixel_pairs_witness :
    (8 : Nat) ∣ blackImg8.width ∧ (8 : Nat) ∣ blackImg8.height ∧
      ((encode_tile blackImg8).length = blackImg8.width * blackImg8.height / 8 * 2 ∧
        blackImg8.width * blackImg8.height / 8 * 2 =
          blackImg8.width * blackImg8.height / 4) :=
  ⟨by decide, by decide, packer_length_pixel_pairs blackImg8 (by decide) (by decide)⟩

/-- C7: blocks are emitted in row-major block order; for a 16x8 image the
output is the left block's 16 bytes followed by the right block's. -/
theorem packer_block_order (img : DecodedImage)
    (hw : img.width = 16) (hh : img.height = 8) :
    encode_tile img = blockBytes img 0 0 ++ blockBytes img 0 1 ∧
      (blockBytes img 0 0).length = 16 ∧
      (∀ img' : DecodedImage, encode_tile img' =
        (List.range (img'.height / 8)).flatMap (fun row =>
          (List.range (img'.width / 8)).flatMap (fun column =>
            blockBytes img' row column))) := by
  refine ⟨?_, blockBytes_length img 0 0, fun img' => rfl⟩
  unfold encode_tile
  rw [hw, hh]
  norm_num
  simp [show List.range 1 = [0] from by decide, show List.range 2 = [0, 1] from by decide]

/-- Witness for C7 at the all-black 16x8 image. -/
theorem packer_block_order_witness :
    blackImg16x8.width = 16 ∧ blackImg16x8.height = 8 ∧
      (encode_tile blackImg16x8 =
          blockBytes blackImg16x8 0 0 ++ blockBytes blackImg16x8 0 1 ∧
        (blockBytes blackImg16x8 0 0).length = 16 ∧
        (∀ img' : DecodedImage, encode_tile img' =
          (List.range (img'.height / 8)).flatMap (fun row =>
            (List.range (img'.width / 8)).flatMap (fun column =>
              blockBytes img' row column)))) :=
  ⟨by decide, by decide, packer_block_order blackImg16x8 (by decide) (by decide)⟩

/-- C10: for arbitrary dimensions every pixel index read by encode_tile is
strictly below width * height, and the output is exactly
floor(height / 8) * floor(width / 8) blocks of 16 bytes, silently
truncating remainder pixels. -/
theorem packer_truncation_safe (width height row column tile_row tile_column : Nat)
    (hrow : row < height / 8) (hcol : column < width / 8)
    (htr : tile_row < 8) (htc : tile_column < 8) :
    pixelIndex width row column tile_row tile_column < width * height ∧
      (∀ img : DecodedImage,
        (encode_tile img).length = img.height / 8 * (img.width / 8) * 16) := by
  refine ⟨pixelIndex_lt width height row column tile_row tile_column hrow hcol htr htc,
    fun img => ?_⟩
  rw [encode_tile_length]
  ring

/-- Witness for C10 at a 12x20 image (neither dimension divisible by 8). -/
theorem packer_truncation_safe_witness :
    (0 : Nat) < 20 / 8 ∧ (0 : Nat) < 12 / 8 ∧ (0 : Nat) < 8 ∧ (0 : Nat) < 8 ∧
      (pixelIndex 12 0 0 0 0 < 12 * 20 ∧
        (∀ img : DecodedImage,
          (encode_tile img).length = img.height / 8 * (img.width / 8) * 16)) :=
  ⟨by decide, by decide, by decide, by decide,
    packer_truncation_safe 12 20 0 0 0 0 (by decide) (by decide) (by decide) (by decide)⟩

/-- C3 counterexample: fiveColorData has five distinct rounded colors that
all fall in luminance bucket 3 (one bucket, hence at most 4), yet
decode_core fails with TooManyColors — the luminance policy does not
exempt an image from the strict distinct-color budget. -/
theorem luminance_five_colors_counterexample :
    fiveColorData.toFinset.card = 5 ∧
      (∀ c ∈ fiveColorData, map_2bit c = 3) ∧
      decode_core 8 8 fiveColorData = .error ImageReadError.TooManyColors := by
  decide

/-- C3 amended: decoding fails with TooManyColors whenever the pixel
buffer holds more than 4 distinct post-rounding colors, even though the
palette indices are computed by luminance and the colors occupy at most 4
buckets; the strict distinct-color budget applies under the luminance
policy too. -/
theorem decode_too_many_colors (width height : Nat) (data : List RGB)
    (hcard : 4 < data.toFinset.card) :
    decode_core width height data = .error ImageReadError.TooManyColors := by
  have herr := scanColors_err data [] List.nodup_nil (by simp) (by simpa using hcard)
  simp [decode_core, herr]

/-- Witness for the amended C3 at fiveColorData. -/
theorem decode_too_many_colors_witness :
    4 < fiveColorData.toFinset.card ∧
      decode_core 8 8 fiveColorData = .error ImageReadError.TooManyColors :=
  ⟨by decide, decode_too_many_colors 8 8 fiveColorData (by decide)⟩

/-- C4: for an 8-divisible image whose palette map assigns every pixel an
index below 4, unpacking the packed stream (byte pairs in block-then-row
order, bit (7 - p) of the low and high bytes as the index's low and high
bits) reproduces the palette index of every pixel in every tile. -/
theorem packer_roundtrip (img : DecodedImage)
    (hlen : img.image_data.length = img.width * img.height)
    (hw : 8 ∣ img.width) (hh : 8 ∣ img.height)
    (hc : ∀ pix ∈ img.image_data, lookup_color img pix < 4)
    (row column tile_row p : Nat)
    (hrow : row < img.height / 8) (hcol : column < img.width / 8)
    (htr : tile_row < 8) (hp : p < 8) :
    reconstructIndex (encode_tile img) (img.width / 8) row column tile_row p =
      lookup_color img (img.image_data.getD
        (pixelIndex img.width row column tile_row p) ⟨0, 0, 0⟩) := by
  have hidx : pixelIndex img.width row column tile_row p < img.image_data.length := by
    rw [hlen]
    exact pixelIndex_lt img.width img.height row column tile_row p hrow hcol htr hp
  have hpc : pixelColor img row column tile_row p < 4 := by
    unfold pixelColor
    rw [List.getD_eq_getElem _ _ hidx]
    exact hc _ (List.getElem_mem hidx)
  have h0 := encode_tile_getD img row column tile_row 0 hrow hcol htr (by omega)
  have h1 := encode_tile_getD img row column tile_row 1 hrow hcol htr (by omega)
  rw [Nat.add_zero] at h0
  unfold reconstructIndex
  rw [h0, h1]
  simp only [List.getD_cons_zero, List.getD_cons_succ]
  rw [rowBytes_low_bit img row column tile_row p hp,
    rowBytes_high_bit img row column tile_row p hp]
  show _ = pixelColor img row column tile_row p
  rw [Nat.shiftRight_one, Nat.and_one_is_mod, Nat.and_one_is_mod]
  omega

/-- Witness for C4 at the all-black 8x8 image, first pixel. -/
theorem packer_roundtrip_witness :
    blackImg8.image_data.length = blackImg8.width * blackImg8.height ∧
      (8 : Nat) ∣ blackImg8.width ∧ (8 : Nat) ∣ blackImg8.height ∧
      (∀ pix ∈ blackImg8.image_data, lookup_color blackImg8 pix < 4) ∧
      reconstructIndex (encode_tile blackImg8) (blackImg8.width / 8) 0 0 0 0 =
        lookup_color blackImg8 (blackImg8.image_data.getD
          (pixelIndex blackImg8.width 0 0 0 0) ⟨0, 0, 0⟩) :=
  ⟨by decide, by decide, by decide, by decide,
    packer_roundtrip blackImg8 (by decide) (by decide) (by decide) (by decide)
      0 0 0 0 (by decide) (by decide) (by decide) (by decide)⟩

/-- Short streams occupy a single chunk line. -/
lemma chunks16_short (l : List Nat) (h1 : l ≠ []) (h2 : l.length ≤ 16) :
    chunks16 l = [l] := by
  cases l with
  | nil => exact absurd rfl h1
  | cons x xs =>
      show chunks16Go ((x :: xs).length + 1) (x :: xs) = [x :: xs]
      simp only [List.length_cons]
      rw [chunks16Go, List.drop_eq_nil_of_le h2, List.take_of_length_le h2]
      cases hlen : xs.length + 1 with
      | zero => omega
      | succ m => rfl

/-- C8: for every byte stream and symbol name, header emission is exactly
the spec template — the preamble, a newline, the bytes 16 per line as
0x-prefixed zero-padded two-digit hex, comma-separated within a line,
lines joined by a comma and newline and each indented four spaces, then
the closing brace, semicolon and trailing newline; a 16-byte stream with
symbol foo renders with all 16 entries on one line, and a 17-byte stream
renders as two comma-separated lines. -/
theorem gbdk_header_format (sym : String) (data : List Nat) :
    write_tile_gbdk sym data = specHeaderFormat sym data ∧
      write_tile_gbdk "foo" sixteenBytes =
        "unsigned char foo[] = \x7b\n    0x00,0x01,0x02,0x03,0x04,0x05,0x06,0x07,0x08,0x09,0x0A,0x0B,0x0C,0x0D,0x0E,0x0F\n\x7d;\n" ∧
      write_tile_gbdk "foo" seventeenBytes =
        "unsigned char foo[] = \x7b\n    0x00,0x01,0x02,0x03,0x04,0x05,0x06,0x07,0x08,0x09,0x0A,0x0B,0x0C,0x0D,0x0E,0x0F,\n    0xFF\n\x7d;\n" := by
  refine ⟨?_, by decide, by decide⟩
  simp only [write_tile_gbdk, specHeaderFormat]
  rw [chunks16_eq_chunks, List.map_map]
  rfl

/-- C9: every successfully decoded image's palette map has an entry for
every color occurring in its pixel buffer (namely its luminance bucket),
so lookup_color's unwrap cannot panic and encode_tile is total on decoded
images. -/
theorem decode_palette_covers_image (width height : Nat) (data : List RGB)
    (img : DecodedImage) (hdec : decode_core width height data = .ok img) :
    ∀ pix ∈ img.image_data, img.color_numbers.lookup pix = some (map_2bit pix) := by
  unfold decode_core at hdec
  cases hsc : scanColors [] data with
  | error e =>
      simp only [hsc] at hdec
      simp at hdec
  | ok unique =>
      simp only [hsc] at hdec
      cases hdec
      intro pix hpix
      exact lookup_rgbs_to_color_number unique pix
        (scanColors_mem data [] unique hsc pix (Or.inr hpix))

/-- Witness for C9 at the one-pixel image. -/
theorem decode_palette_covers_image_witness :
    decode_core 1 1 oneBlackPixel = .ok imgOnePixel ∧
      ∀ pix ∈ imgOnePixel.image_data,
        imgOnePixel.color_numbers.lookup pix = some (map_2bit pix) :=
  ⟨by decide, decode_palette_covers_image 1 1 oneBlackPixel imgOnePixel (by decide)⟩

